import Mathlib

/-!
Shallow embedding of the `rustemmer` Go package (file `rustemmer.go`):
a Porter-style stemmer for Russian.  Words are modelled as their sequence
of Unicode code points (`List Char`), matching the Go code's `[]rune`
representation.  Each Lean definition mirrors the Go function of the same
name; the static suffix tables are transcribed verbatim.
-/

set_option maxRecDepth 4000

/-- VOWEL constant of the package: the ten Russian vowel letters. -/
def VOWEL : List Char := "аеёиоуыэюя".data

/-- Embeds `isVowel`: membership of the character in the vowel string. -/
def isVowel (c : Char) : Bool := VOWEL.contains c

/-- Loop of `findRegions`: walks the word from index 1, carrying the
previous character, the current index, the scanner state (0, 1 or 2) and
the accumulated `RV` and `R2` values, exactly as the Go `for`/`switch`. -/
def findRegionsAux : List Char → Char → Nat → Nat → Nat → Nat → Nat × Nat
  | [], _, _, _, rv, r2 => (rv, r2)
  | c :: rest, prev, i, state, rv, r2 =>
    match state with
    | 0 =>
      if isVowel c then findRegionsAux rest c (i + 1) 1 (i + 1) r2
      else findRegionsAux rest c (i + 1) 0 rv r2
    | 1 =>
      if isVowel prev && !(isVowel c) then findRegionsAux rest c (i + 1) 2 rv r2
      else findRegionsAux rest c (i + 1) 1 rv r2
    | st =>
      if isVowel prev && !(isVowel c) then (rv, i + 1)
      else findRegionsAux rest c (i + 1) st rv r2

/-- Embeds `findRegions`: computes the pair (RV, R2) for a word.  The Go
loop runs `i` from 1 to `len(word)-1` with `prevChar = word[i-1]`; both
boundaries start at 0. -/
def findRegions (w : List Char) : Nat × Nat :=
  match w with
  | [] => (0, 0)
  | c :: rest => findRegionsAux rest c 1 0 0 0

/-- Embeds Go `strings.HasSuffix word s`. -/
def hasSuffix (w s : List Char) : Bool := decide (s <:+ w)

/-- Embeds Go `strings.TrimSuffix word s`: drops `s` from the end when it
is a suffix, otherwise returns the word unchanged. -/
def trimSuffix (w s : List Char) : List Char :=
  if hasSuffix w s then w.take (w.length - s.length) else w

/-- Embeds `trimFirstSuffix`: scans the suffix list in order; with
`isAYA` set, a candidate is skipped unless the word ends with `"а"+s` or
`"я"+s`; the first candidate whose `trimSuffix` changes the word wins. -/
def trimFirstSuffix (word : List Char) (suffixes : List (List Char)) (isAYA : Bool) :
    List Char :=
  match suffixes with
  | [] => word
  | s :: rest =>
    if isAYA && !(hasSuffix word ('а' :: s) || hasSuffix word ('я' :: s)) then
      trimFirstSuffix word rest isAYA
    else
      let result := trimSuffix word s
      if result = word then trimFirstSuffix word rest isAYA else result

/-- Embeds `removeEndings`: the Go function is variadic over one or two
suffix packs, modelled here by an `Option` second pack.  The region index
is clamped to the word length; the word splits into an untouched front
part and a tail, the packs are tried on the tail (the first with the
а/я precondition when a second pack is present), and on success the
shortened tail is recombined with the front part. -/
def removeEndings (word : List Char) (region : Nat) (pack1 : List (List Char))
    (pack2 : Option (List (List Char))) : List Char × Bool :=
  let r := min region word.length
  let pre := word.take r
  let tl := word.drop r
  match pack2 with
  | some p2 =>
    let res := trimFirstSuffix tl pack1 true
    if res = tl then
      let res2 := trimFirstSuffix tl p2 false
      if res2 = tl then (word, false) else (pre ++ res2, true)
    else (pre ++ res, true)
  | none =>
    let res := trimFirstSuffix tl pack1 false
    if res = tl then (word, false) else (pre ++ res, true)

/-- Converts a table written as string literals to code-point lists. -/
def mkTable (l : List String) : List (List Char) := l.map String.data

/-- Embeds `appendPrefix` (called with a single pack in the source):
every table entry is prefixed with every element of the pack, outer loop
over the entries, inner loop over the pack. -/
def appendPrefix (strs pres : List (List Char)) : List (List Char) :=
  (strs.map (fun str => pres.map (fun p => p ++ str))).flatten

/-- Table `suffixNN`. -/
def suffixNN : List (List Char) := mkTable ["нн"]

/-- Table `suffixPerfectiveGerunds` (two packs, transcribed verbatim with
the duplicated entries of the source). -/
def suffixPerfectiveGerunds : List (List Char) × List (List Char) :=
  (mkTable ["в", "вши", "вшись", "в", "вши", "вшись"],
   mkTable ["ив", "ивши", "ившись", "ыв", "ывши", "ывшись"])

/-- Table `suffixReflexives`. -/
def suffixReflexives : List (List Char) := mkTable ["ся", "сь"]

/-- Table `suffixAdjective`. -/
def suffixAdjective : List (List Char) := mkTable
  ["ее", "ие", "ые", "ое", "ими", "ыми", "ей", "ий", "ый", "ой", "ем", "им", "ым", "ом",
   "его", "ого", "ему", "ому", "их", "ых", "ую", "юю", "ая", "яя", "ою", "ею"]

/-- Table `suffixVerb` (two packs). -/
def suffixVerb : List (List Char) × List (List Char) :=
  (mkTable ["ла", "на", "ете", "йте", "ли", "й", "л", "ем", "н", "ло", "но", "ет", "ют",
            "ны", "ть", "ешь", "нно"],
   mkTable ["ила", "ыла", "ена", "ейте", "уйте", "ите", "или", "ыли", "ей", "уй", "ил",
            "ыл", "им", "ым", "ен", "ило", "ыло", "ено", "ят", "ует", "уют", "ит", "ыт",
            "ены", "ить", "ыть", "ишь", "ую", "ю"])

/-- Table `suffixNoun`. -/
def suffixNoun : List (List Char) := mkTable
  ["а", "ев", "ов", "ие", "ье", "е", "иями", "ями", "ами", "еи", "ии", "и", "ией", "ей",
   "ой", "ий", "й", "иям", "ям", "ием", "ем", "ам", "ом", "о", "у", "ах", "иях", "ях",
   "ы", "ь", "ию", "ью", "ю", "ия", "ья", "я"]

/-- Table `suffixSuperlative`. -/
def suffixSuperlative : List (List Char) := mkTable ["ейш", "ейше"]

/-- Table `suffixSoftSign`. -/
def suffixSoftSign : List (List Char) := mkTable ["ь"]

/-- Table `suffixI`. -/
def suffixI : List (List Char) := mkTable ["и"]

/-- Table `suffixDerivational`. -/
def suffixDerivational : List (List Char) := mkTable ["ост", "ость"]

/-- Table `suffixParticiple` (two packs, built from the adjective table by
`appendPrefix` exactly as in the source). -/
def suffixParticiple : List (List Char) × List (List Char) :=
  (appendPrefix suffixAdjective (mkTable ["ем", "нн", "вш", "ющ", "щ"]),
   appendPrefix suffixAdjective (mkTable ["ивш", "ывш", "ующ"]))

/-- Step 1 block of `GetWordBase` (perfective gerund, else reflexive then
participle / adjective / verb / noun), with the Go short-circuit structure
made explicit by threading the word through each attempt. -/
def step1 (w : List Char) (rv : Nat) : List Char :=
  let g := removeEndings w rv suffixPerfectiveGerunds.1 (some suffixPerfectiveGerunds.2)
  if g.2 then g.1
  else
    let w1 := (removeEndings w rv suffixReflexives none).1
    let p := removeEndings w1 rv suffixParticiple.1 (some suffixParticiple.2)
    if p.2 then p.1
    else
      let a := removeEndings w1 rv suffixAdjective none
      if a.2 then a.1
      else
        let v := removeEndings w1 rv suffixVerb.1 (some suffixVerb.2)
        if v.2 then v.1
        else (removeEndings w1 rv suffixNoun none).1

/-- Core of `GetWordBase` on code-point lists: region computation followed
by the four steps of the algorithm, in source order. -/
def stemWord (w : List Char) : List Char :=
  let rg := findRegions w
  let s1 := step1 w rg.1
  let s2 := (removeEndings s1 rg.1 suffixI none).1
  let s3 := (removeEndings s2 rg.2 suffixDerivational none).1
  let p := removeEndings s3 rg.1 suffixNN none
  let s4 := if p.2 then p.1 ++ ['н'] else p.1
  let s5 := (removeEndings s4 rg.1 suffixSuperlative none).1
  (removeEndings s5 rg.1 suffixSoftSign none).1

/-- Embeds `GetWordBase`. -/
def GetWordBase (word : String) : String := String.mk (stemWord word.data)

/-- Word-character class of the tokenizing regexp `[\p{L}\d_]+`: letters,
digits and underscore.  The Unicode letter class is modelled by the ASCII
letters together with the Cyrillic letters (the scripts the package and
its examples exercise); digits are the ASCII digits, matching Go's `\d`. -/
def isWordChar (c : Char) : Bool :=
  c.isAlpha || c.isDigit || c == '_' ||
    (0x410 ≤ c.toNat && c.toNat ≤ 0x44F) || c == 'ё' || c == 'Ё'

/-- Embeds `regexp.FindAllString` for a character-class-plus pattern: the
maximal runs of characters satisfying `p`, in order. -/
def tokenize (p : Char → Bool) : List Char → List (List Char)
  | [] => []
  | c :: cs =>
    let toks := tokenize p cs
    if p c then
      match cs with
      | [] => [[c]]
      | d :: _ =>
        if p d then
          match toks with
          | [] => [[c]]
          | t :: ts => (c :: t) :: ts
        else [c] :: toks
    else toks

/-- Embeds `NormalizeText`: tokenize, stem every token, join with a single
space (`strings.Join(words, " ")`). -/
def NormalizeText (text : String) : String :=
  String.mk (List.intercalate [' '] ((tokenize isWordChar text.data).map stemWord))

/-! ## Helper lemmas -/

theorem hasSuffix_iff {w s : List Char} : hasSuffix w s = true ↔ s <:+ w := by
  simp [hasSuffix]

theorem trimSuffix_of_suffix {w s : List Char} (h : s <:+ w) :
    trimSuffix w s = w.take (w.length - s.length) := by
  simp [trimSuffix, hasSuffix, h]

theorem trimSuffix_of_not_suffix {w s : List Char} (h : ¬ s <:+ w) :
    trimSuffix w s = w := by
  simp [trimSuffix, hasSuffix, h]

theorem take_sub_ne {w s : List Char} (h : s <:+ w) (hs : s ≠ []) :
    w.take (w.length - s.length) ≠ w := by
  intro he
  have hls : s.length ≤ w.length := h.length_le
  have h0 : 0 < s.length := List.length_pos.2 hs
  have hl := congrArg List.length he
  rw [List.length_take] at hl
  omega

theorem suffix_of_cons_suffix {w s : List Char} {a : Char} (h : (a :: s) <:+ w) :
    s <:+ w := (List.suffix_cons a s).trans h

/-- Characterization of `trimFirstSuffix` without the а/я gate: it strips
exactly the first listed suffix that ends the word, scanning in list
order. -/
theorem trimFirstSuffix_false_spec (w : List Char) (sfx : List (List Char))
    (h : ∀ s ∈ sfx, s ≠ []) :
    trimFirstSuffix w sfx false =
      match sfx.find? (fun s => hasSuffix w s) with
      | some s => w.take (w.length - s.length)
      | none => w := by
  induction sfx with
  | nil => simp [trimFirstSuffix]
  | cons s rest ih =>
    have hs : s ≠ [] := h s (by simp)
    by_cases hsf : s <:+ w
    · have hh : hasSuffix w s = true := hasSuffix_iff.2 hsf
      rw [List.find?_cons_of_pos _ hh]
      simp only [trimFirstSuffix, Bool.false_and, Bool.false_eq_true, if_false]
      rw [trimSuffix_of_suffix hsf]
      simp [take_sub_ne hsf hs]
    · have hh : hasSuffix w s = false := by
        simp [hasSuffix, hsf]
      rw [List.find?_cons_of_neg _ (by simp [hh])]
      simp only [trimFirstSuffix, Bool.false_and, Bool.false_eq_true, if_false]
      rw [trimSuffix_of_not_suffix hsf]
      simpa using ih (fun x hx => h x (List.mem_cons_of_mem _ hx))

/-- Characterization of `trimFirstSuffix` with the а/я gate: it strips
exactly the first listed suffix `s` such that the word ends with `"а"+s`
or `"я"+s`, scanning in list order, and keeps the preceding vowel. -/
theorem trimFirstSuffix_true_spec (w : List Char) (sfx : List (List Char))
    (h : ∀ s ∈ sfx, s ≠ []) :
    trimFirstSuffix w sfx true =
      match sfx.find? (fun s => hasSuffix w ('а' :: s) || hasSuffix w ('я' :: s)) with
      | some s => w.take (w.length - s.length)
      | none => w := by
  induction sfx with
  | nil => simp [trimFirstSuffix]
  | cons s rest ih =>
    have hs : s ≠ [] := h s (by simp)
    by_cases hc : ('а' :: s) <:+ w ∨ ('я' :: s) <:+ w
    · have hh : (hasSuffix w ('а' :: s) || hasSuffix w ('я' :: s)) = true := by
        rcases hc with hc | hc
        · simp [hasSuffix_iff.2 hc]
        · simp [hasSuffix_iff.2 hc]
      rw [List.find?_cons_of_pos (p := fun s => hasSuffix w ('а' :: s) || hasSuffix w ('я' :: s))
        _ hh]
      have hsf : s <:+ w := by
        rcases hc with hc | hc
        · exact suffix_of_cons_suffix hc
        · exact suffix_of_cons_suffix hc
      simp only [trimFirstSuffix, Bool.true_and, hh, Bool.not_true, Bool.false_eq_true,
        if_false]
      rw [trimSuffix_of_suffix hsf]
      simp [take_sub_ne hsf hs]
    · have hh : (hasSuffix w ('а' :: s) || hasSuffix w ('я' :: s)) = false := by
        push_neg at hc
        simp [hasSuffix, hc.1, hc.2]
      rw [List.find?_cons_of_neg (p := fun s => hasSuffix w ('а' :: s) || hasSuffix w ('я' :: s))
        _ (by simp [hh])]
      simp only [trimFirstSuffix, Bool.true_and, hh, Bool.not_false, if_true]
      simpa using ih (fun x hx => h x (List.mem_cons_of_mem _ hx))

/-- Characterization of single-pack `removeEndings`: on the tail after the
clamped region boundary, it strips the first listed suffix that ends the
tail (together with the matched flag), and leaves the word untouched when
no listed suffix matches. -/
theorem removeEndings_none_spec (w : List Char) (region : Nat) (pack : List (List Char))
    (h : ∀ s ∈ pack, s ≠ []) :
    removeEndings w region pack none =
      match pack.find? (fun s => hasSuffix (w.drop (min region w.length)) s) with
      | some s => (w.take (w.length - s.length), true)
      | none => (w, false) := by
  simp only [removeEndings]
  rw [trimFirstSuffix_false_spec _ _ h]
  cases hf : pack.find? (fun s => hasSuffix (w.drop (min region w.length)) s) with
  | none => simp
  | some s =>
    have hmem : s ∈ pack := List.mem_of_find?_eq_some hf
    have hps : hasSuffix (w.drop (min region w.length)) s = true := List.find?_some hf
    have hsf : s <:+ w.drop (min region w.length) := hasSuffix_iff.1 hps
    have hs : s ≠ [] := h s hmem
    have hne : List.take (w.length - min region w.length - s.length)
        (w.drop (min region w.length)) ≠ w.drop (min region w.length) := by
      have hx := take_sub_ne hsf hs
      rwa [List.length_drop] at hx
    have hsl : s.length ≤ w.length - min region w.length := by
      have h1 := hsf.length_le
      rwa [List.length_drop] at h1
    have hmr : min region w.length ≤ w.length := min_le_right _ _
    have harith : min region w.length + (w.length - min region w.length - s.length)
        = w.length - s.length := by omega
    simp only [List.length_drop]
    rw [if_neg hne, ← List.take_add, harith]

/-- Characterization of two-pack `removeEndings`: the first pack matches
under the а/я precondition (the matched suffix alone is stripped, the
vowel kept); when no first-pack entry matches, the call behaves exactly
as a single-pack call on the second pack. -/
theorem removeEndings_some_spec (w : List Char) (region : Nat)
    (p1 p2 : List (List Char)) (h1 : ∀ s ∈ p1, s ≠ []) :
    removeEndings w region p1 (some p2) =
      match p1.find? (fun s =>
          hasSuffix (w.drop (min region w.length)) ('а' :: s) ||
          hasSuffix (w.drop (min region w.length)) ('я' :: s)) with
      | some s => (w.take (w.length - s.length), true)
      | none => removeEndings w region p2 none := by
  simp only [removeEndings]
  rw [trimFirstSuffix_true_spec _ _ h1]
  cases hf : p1.find? (fun s =>
      hasSuffix (w.drop (min region w.length)) ('а' :: s) ||
      hasSuffix (w.drop (min region w.length)) ('я' :: s)) with
  | none => simp
  | some s =>
    have hmem : s ∈ p1 := List.mem_of_find?_eq_some hf
    have hps := List.find?_some hf
    have hsf : s <:+ w.drop (min region w.length) := by
      rcases Bool.or_eq_true_iff.1 hps with hc | hc
      · exact suffix_of_cons_suffix (hasSuffix_iff.1 hc)
      · exact suffix_of_cons_suffix (hasSuffix_iff.1 hc)
    have hs : s ≠ [] := h1 s hmem
    have hne : List.take (w.length - min region w.length - s.length)
        (w.drop (min region w.length)) ≠ w.drop (min region w.length) := by
      have hx := take_sub_ne hsf hs
      rwa [List.length_drop] at hx
    have hsl : s.length ≤ w.length - min region w.length := by
      have h1 := hsf.length_le
      rwa [List.length_drop] at h1
    have hmr : min region w.length ≤ w.length := min_le_right _ _
    have harith : min region w.length + (w.length - min region w.length - s.length)
        = w.length - s.length := by omega
    simp only [List.length_drop]
    rw [if_neg hne, ← List.take_add, harith]


theorem take_isPrefix (l : List Char) (n : Nat) : l.take n <+: l :=
  ⟨l.drop n, List.take_append_drop ..⟩

theorem trimSuffix_isPrefix (w s : List Char) : trimSuffix w s <+: w := by
  unfold trimSuffix
  split
  · exact take_isPrefix ..
  · exact List.prefix_refl w

theorem trimFirstSuffix_isPrefix (w : List Char) (sfx : List (List Char)) (aya : Bool) :
    trimFirstSuffix w sfx aya <+: w := by
  induction sfx with
  | nil => exact List.prefix_refl w
  | cons s rest ih =>
    simp only [trimFirstSuffix]
    split
    · exact ih
    · split
      · exact ih
      · exact trimSuffix_isPrefix w s

theorem append_prefix_mono (pre : List Char) {r t : List Char} (h : r <+: t) :
    pre ++ r <+: pre ++ t := by
  obtain ⟨u, hu⟩ := h
  exact ⟨u, by rw [List.append_assoc, hu]⟩

theorem removeEndings_fst_isPrefix (w : List Char) (region : Nat)
    (p1 : List (List Char)) (p2 : Option (List (List Char))) :
    (removeEndings w region p1 p2).1 <+: w := by
  have hw : w.take (min region w.length) ++ w.drop (min region w.length) = w :=
    List.take_append_drop ..
  have hx : ∀ (pck : List (List Char)) (b : Bool),
      w.take (min region w.length) ++ trimFirstSuffix (w.drop (min region w.length)) pck b
        <+: w := by
    intro pck b
    have h := append_prefix_mono (w.take (min region w.length))
      (trimFirstSuffix_isPrefix (w.drop (min region w.length)) pck b)
    rwa [hw] at h
  cases p2 with
  | none =>
    simp only [removeEndings]
    split <;> first | exact List.prefix_refl w | exact hx _ _
  | some q =>
    simp only [removeEndings]
    split <;> (try split) <;> first | exact List.prefix_refl w | exact hx _ _

theorem removeEndings_nn_eq (w : List Char) (rv : Nat)
    (h : (removeEndings w rv suffixNN none).2 = true) :
    w = (removeEndings w rv suffixNN none).1 ++ ['н', 'н'] := by
  have hnn : suffixNN = [['н', 'н']] := by decide
  have hne : ∀ s ∈ suffixNN, s ≠ [] := by decide
  rw [removeEndings_none_spec w rv suffixNN hne] at h ⊢
  rw [hnn] at h ⊢
  by_cases hsf : hasSuffix (w.drop (min rv w.length)) ['н', 'н'] = true
  · rw [List.find?_cons_of_pos _ hsf] at h ⊢
    have h1 : ['н', 'н'] <:+ w.drop (min rv w.length) := hasSuffix_iff.1 hsf
    have h2 : ['н', 'н'] <:+ w := h1.trans (List.drop_suffix ..)
    obtain ⟨t, ht⟩ := h2
    have hlen : w.length = t.length + 2 := by
      have := congrArg List.length ht
      simp at this
      omega
    have htake : w.take (w.length - 2) = t := by
      rw [← ht]
      have hl2 : (t ++ ['н', 'н']).length - 2 = t.length := by simp
      rw [hl2]
      exact List.take_left ..
    simp only [List.length_cons, List.length_nil]
    rw [htake, ht]
  · rw [List.find?_cons_of_neg _ (by simpa using hsf)] at h
    simp at h

theorem step1_isPrefix (w : List Char) (rv : Nat) : step1 w rv <+: w := by
  simp only [step1]
  split
  · exact removeEndings_fst_isPrefix ..
  · split
    · exact (removeEndings_fst_isPrefix ..).trans (removeEndings_fst_isPrefix ..)
    · split
      · exact (removeEndings_fst_isPrefix ..).trans (removeEndings_fst_isPrefix ..)
      · split
        · exact (removeEndings_fst_isPrefix ..).trans (removeEndings_fst_isPrefix ..)
        · exact (removeEndings_fst_isPrefix ..).trans (removeEndings_fst_isPrefix ..)

theorem stemWord_isPrefix (w : List Char) : stemWord w <+: w := by
  have key : ∀ (v : List Char) (rv : Nat),
      (if (removeEndings v rv suffixNN none).2 then
        (removeEndings v rv suffixNN none).1 ++ ['н']
      else (removeEndings v rv suffixNN none).1) <+: v := by
    intro v rv
    by_cases hp : (removeEndings v rv suffixNN none).2 = true
    · have hv := removeEndings_nn_eq v rv hp
      rw [if_pos hp]
      have hpre : (removeEndings v rv suffixNN none).1 ++ ['н']
          <+: (removeEndings v rv suffixNN none).1 ++ ['н', 'н'] := ⟨['н'], by simp⟩
      rwa [← hv] at hpre
    · rw [if_neg hp]
      exact removeEndings_fst_isPrefix ..
  simp only [stemWord]
  exact (removeEndings_fst_isPrefix ..).trans
    ((removeEndings_fst_isPrefix ..).trans
      ((key _ _).trans
        ((removeEndings_fst_isPrefix ..).trans
          ((removeEndings_fst_isPrefix ..).trans (step1_isPrefix w _)))))

theorem findRegionsAux_fst_of_state12 (rest : List Char) :
    ∀ (prev : Char) (i state rv r2 : Nat), state = 1 ∨ state = 2 →
      (findRegionsAux rest prev i state rv r2).1 = rv := by
  induction rest with
  | nil => intro prev i state rv r2 _; rfl
  | cons c cs ih =>
    intro prev i state rv r2 hst
    rcases hst with h | h <;> subst h
    · simp only [findRegionsAux]
      split
      · exact ih c (i + 1) 2 rv r2 (Or.inr rfl)
      · exact ih c (i + 1) 1 rv r2 (Or.inl rfl)
    · simp only [findRegionsAux]
      split
      · rfl
      · exact ih c (i + 1) 2 rv r2 (Or.inr rfl)

theorem findRegionsAux_fst_of_state0 (rest : List Char) :
    ∀ (prev : Char) (i : Nat),
      (findRegionsAux rest prev i 0 0 0).1 =
        if rest.any isVowel then i + rest.findIdx isVowel + 1 else 0 := by
  induction rest with
  | nil => intro prev i; rfl
  | cons c cs ih =>
    intro prev i
    simp only [findRegionsAux]
    by_cases hv : isVowel c
    · rw [if_pos hv]
      rw [findRegionsAux_fst_of_state12 cs c (i + 1) 1 (i + 1) 0 (Or.inl rfl)]
      simp [List.any_cons, hv, List.findIdx_cons]
    · rw [if_neg hv, ih c (i + 1)]
      simp only [List.any_cons, List.findIdx_cons, hv, Bool.false_or, cond_false]
      by_cases ha : cs.any isVowel
      · rw [if_pos ha, if_pos ha]
        omega
      · rw [if_neg ha, if_neg ha]

theorem trimFirstSuffix_nil_tail (pack : List (List Char)) (aya : Bool) :
    trimFirstSuffix [] pack aya = [] := by
  induction pack with
  | nil => rfl
  | cons s rest ih =>
    have hts : trimSuffix [] s = [] := by
      simp [trimSuffix]
    simp only [trimFirstSuffix, hts]
    split
    · exact ih
    · simp [ih]

theorem removeEndings_of_region_ge (w : List Char) (region : Nat)
    (p1 : List (List Char)) (p2 : Option (List (List Char)))
    (h : w.length ≤ region) :
    removeEndings w region p1 p2 = (w, false) := by
  have hmin : min region w.length = w.length := min_eq_right h
  have hdrop : w.drop (min region w.length) = [] := by
    rw [hmin]; exact List.drop_length ..
  simp only [removeEndings, hdrop, trimFirstSuffix_nil_tail]
  cases p2 <;> simp

theorem tokenize_chars_sat (p : Char → Bool) (l : List Char) :
    ∀ t ∈ tokenize p l, ∀ c ∈ t, p c = true := by
  induction l with
  | nil => intro t ht; simp [tokenize] at ht
  | cons c cs ih =>
    intro t ht x hx
    by_cases hc : p c
    · cases cs with
      | nil =>
        have he : tokenize p [c] = [[c]] := by simp [tokenize, hc]
        rw [he] at ht
        simp at ht
        subst ht
        simp at hx
        subst hx
        exact hc
      | cons d ds =>
        cases htoks : tokenize p (d :: ds) with
        | nil =>
          have he : tokenize p (c :: d :: ds) = [[c]] := by
            rw [tokenize]
            simp only [htoks]
            by_cases hd : p d <;> simp [hc, hd]
          rw [he] at ht
          simp at ht
          subst ht
          simp at hx
          subst hx
          exact hc
        | cons t0 ts =>
          by_cases hd : p d
          · have he : tokenize p (c :: d :: ds) = (c :: t0) :: ts := by
              rw [tokenize]
              simp only [htoks]
              simp [hc, hd]
            rw [he] at ht
            simp only [List.mem_cons] at ht
            rcases ht with ht | ht
            · subst ht
              simp only [List.mem_cons] at hx
              rcases hx with hx | hx
              · subst hx; exact hc
              · exact ih t0 (by rw [htoks]; simp) x hx
            · exact ih t (by rw [htoks]; simp [ht]) x hx
          · have he : tokenize p (c :: d :: ds) = [c] :: t0 :: ts := by
              rw [tokenize]
              simp only [htoks]
              simp [hc, hd]
            rw [he] at ht
            simp only [List.mem_cons] at ht
            rcases ht with ht | ht
            · subst ht
              simp at hx
              subst hx
              exact hc
            · exact ih t (by rw [htoks]; simp [ht]) x hx
    · have he : tokenize p (c :: cs) = tokenize p cs := by
        simp [tokenize, hc]
      rw [he] at ht
      exact ih t ht x hx

/-! ## Claim theorems -/

/-- C1: the per-word stemming operation maps the word "вазы" to exactly
the string "ваз". -/
theorem getWordBase_vazy : GetWordBase "вазы" = "ваз" := by decide

/-- C2: `NormalizeText` applied to "г. Москва, ул. Полярная, д. 31А,
стр. 1" returns exactly "г Москв ул Полярн д 31А стр 1": tokens are the
maximal runs of letters, digits and underscore, each token is stemmed by
the per-word operation, and the stems are rejoined with single spaces. -/
theorem normalizeText_moscow_example :
    NormalizeText "г. Москва, ул. Полярная, д. 31А, стр. 1"
      = "г Москв ул Полярн д 31А стр 1" := by decide

/-- C3: for every word, region index and list of (nonempty) suffixes, the
suffix-removal operation strips the first suffix in list order whose
characters end the region's tail — even when a later list entry is a
longer suffix that also matches — and exactly that one suffix is removed;
the removed suffix is determined by list position, never by maximal
length. -/
theorem removeEndings_first_match_in_list_order (w : List Char) (region : Nat)
    (pack : List (List Char)) (h : ∀ s ∈ pack, s ≠ []) :
    removeEndings w region pack none =
      match pack.find? (fun s => hasSuffix (w.drop (min region w.length)) s) with
      | some s => (w.take (w.length - s.length), true)
      | none => (w, false) :=
  removeEndings_none_spec w region pack h

/-- Witness for C3: with the suffix list ["б", "аб"] on the word "аб"
(region 0), the first listed suffix "б" is the one stripped although the
later entry "аб" is a longer suffix that also matches. -/
theorem removeEndings_first_match_in_list_order_witness :
    removeEndings ['а', 'б'] 0 [['б'], ['а', 'б']] none = (['а'], true) :=
  (removeEndings_first_match_in_list_order ['а', 'б'] 0 [['б'], ['а', 'б']]
    (by decide)).trans (by decide)

/-- C4: called with two (nonempty-)suffix packs, a first-pack suffix
matches only if the region's tail ends with "а"+suffix or "я"+suffix; on
such a match exactly the suffix is stripped and the preceding а/я vowel is
kept; when no first-pack suffix matches under this precondition, the
second pack is scanned with plain ends-with matching and no
precondition. -/
theorem removeEndings_aya_gate (w : List Char) (region : Nat)
    (p1 p2 : List (List Char)) (h1 : ∀ s ∈ p1, s ≠ []) :
    removeEndings w region p1 (some p2) =
      match p1.find? (fun s =>
          hasSuffix (w.drop (min region w.length)) ('а' :: s) ||
          hasSuffix (w.drop (min region w.length)) ('я' :: s)) with
      | some s => (w.take (w.length - s.length), true)
      | none => removeEndings w region p2 none :=
  removeEndings_some_spec w region p1 p2 h1

/-- Witness for C4: on the word "ав" (region 0) with first pack ["в"],
the tail ends with "а"+"в", so "в" alone is stripped and the vowel "а"
kept. -/
theorem removeEndings_aya_gate_witness :
    removeEndings ['а', 'в'] 0 [['в']] (some [['х']]) = (['а'], true) :=
  (removeEndings_aya_gate ['а', 'в'] 0 [['в']] [['х']] (by decide)).trans (by decide)

/-- C5: gating of Step 1: if perfective-gerund removal succeeds, the step
result is that removal alone (no reflexive, participle, adjective, verb or
noun attempt); otherwise the reflexive attempt is applied (its outcome
gating nothing), then participle removal is attempted, then — only if
participle failed — adjective removal, then — only if both failed — verb
removal, then — only if verb also failed — noun removal; so at most one
of the gerund / participle-or-adjective / verb / noun removals succeeds
per word. -/
theorem step1_gating (w : List Char) (rv : Nat) :
    ((removeEndings w rv suffixPerfectiveGerunds.1 (some suffixPerfectiveGerunds.2)).2 = true →
      step1 w rv
        = (removeEndings w rv suffixPerfectiveGerunds.1 (some suffixPerfectiveGerunds.2)).1) ∧
    ((removeEndings w rv suffixPerfectiveGerunds.1 (some suffixPerfectiveGerunds.2)).2 = false →
      ((removeEndings (removeEndings w rv suffixReflexives none).1 rv
            suffixParticiple.1 (some suffixParticiple.2)).2 = true →
        step1 w rv = (removeEndings (removeEndings w rv suffixReflexives none).1 rv
            suffixParticiple.1 (some suffixParticiple.2)).1) ∧
      ((removeEndings (removeEndings w rv suffixReflexives none).1 rv
            suffixParticiple.1 (some suffixParticiple.2)).2 = false →
        ((removeEndings (removeEndings w rv suffixReflexives none).1 rv
              suffixAdjective none).2 = true →
          step1 w rv = (removeEndings (removeEndings w rv suffixReflexives none).1 rv
              suffixAdjective none).1) ∧
        ((removeEndings (removeEndings w rv suffixReflexives none).1 rv
              suffixAdjective none).2 = false →
          ((removeEndings (removeEndings w rv suffixReflexives none).1 rv
                suffixVerb.1 (some suffixVerb.2)).2 = true →
            step1 w rv = (removeEndings (removeEndings w rv suffixReflexives none).1 rv
                suffixVerb.1 (some suffixVerb.2)).1) ∧
          ((removeEndings (removeEndings w rv suffixReflexives none).1 rv
                suffixVerb.1 (some suffixVerb.2)).2 = false →
            step1 w rv = (removeEndings (removeEndings w rv suffixReflexives none).1 rv
                suffixNoun none).1)))) := by
  constructor
  · intro hg
    simp [step1, hg]
  · intro hg
    constructor
    · intro hp
      simp [step1, hg, hp]
    · intro hp
      constructor
      · intro ha
        simp [step1, hg, hp, ha]
      · intro ha
        constructor
        · intro hv
          simp [step1, hg, hp, ha, hv]
        · intro hv
          simp [step1, hg, hp, ha, hv]

/-- Witness for C5: on the word "ав" with region 0 the perfective-gerund
attempt succeeds, and Step 1 is exactly its result "а". -/
theorem step1_gating_witness : step1 ['а', 'в'] 0 = ['а'] :=
  ((step1_gating ['а', 'в'] 0).1 (by decide)).trans (by decide)

/-- C6 counterexample: the word "а" contains a vowel (its first vowel is
at index 0), yet `findRegions` leaves RV = 0 rather than first-vowel-index
plus one: the scan starts comparing at index 1 and never classifies the
first character. -/
theorem findRegions_rv_first_vowel_cex :
    ['а'].any isVowel = true ∧ ['а'].findIdx isVowel = 0 ∧
      (findRegions ['а']).1 ≠ ['а'].findIdx isVowel + 1 := by decide

/-- C6 amended: RV is the offset just after the first vowel occurring at
index ≥ 1 (the region finder starts at index 1 and never examines the
character at index 0 in its vowel-search state), and RV = 0 when no vowel
occurs at index ≥ 1 — in particular RV = 0 for every vowel-less word. -/
theorem findRegions_rv_amended (w : List Char) :
    (findRegions w).1 =
      if (w.drop 1).any isVowel then (w.drop 1).findIdx isVowel + 2 else 0 := by
  cases w with
  | nil => simp [findRegions]
  | cons c rest =>
    have h0 := findRegionsAux_fst_of_state0 rest c 1
    have hdrop : (c :: rest).drop 1 = rest := rfl
    simp only [findRegions]
    rw [h0, hdrop]
    by_cases ha : rest.any isVowel
    · rw [if_pos ha, if_pos ha]
      omega
    · rw [if_neg ha, if_neg ha]

/-- C7: suffix removal leaves the clamped front of the word unchanged:
whatever the match outcome, the first min(region, length) code points
after a `removeEndings` call equal the first min(region, length) code
points before it. -/
theorem removeEndings_preserves_clamped_front (w : List Char) (region : Nat)
    (p1 : List (List Char)) (p2 : Option (List (List Char))) :
    ((removeEndings w region p1 p2).1).take (min region w.length)
      = w.take (min region w.length) := by
  have hx : ∀ res : List Char,
      (w.take (min region w.length) ++ res).take (min region w.length)
        = w.take (min region w.length) := by
    intro res
    refine List.take_left' ?_
    rw [List.length_take]
    omega
  cases p2 with
  | none =>
    simp only [removeEndings]
    split <;> first | rfl | exact hx _
  | some q =>
    simp only [removeEndings]
    split <;> (try split) <;> first | rfl | exact hx _

/-- C8: totality and safety: the per-word operation returns a string for
every input (here, the empty string maps to the empty string), region
indices are clamped by construction, and whenever the clamped region
boundary reaches the word length — including after the word has shrunk
below a previously computed boundary — the tail is empty, no suffix
matches, and the word is returned unchanged with no removal reported. -/
theorem getWordBase_total_safe :
    GetWordBase "" = "" ∧
      ∀ (w : List Char) (region : Nat) (p1 : List (List Char))
        (p2 : Option (List (List Char))), w.length ≤ region →
          removeEndings w region p1 p2 = (w, false) :=
  ⟨by decide, fun w region p1 p2 h => removeEndings_of_region_ge w region p1 p2 h⟩

/-- Witness for C8: a region boundary beyond the word length yields the
word unchanged with no match. -/
theorem getWordBase_total_safe_witness :
    removeEndings ['х'] 5 suffixNoun none = (['х'], false) :=
  getWordBase_total_safe.2 ['х'] 5 suffixNoun none (by decide)

/-- C9: one output field per input token: for every text with at least one
token, splitting the normalized text on the space separator yields exactly
the per-token stems in original token order — an empty stem is kept as a
field rather than dropped — so the number of space-joined fields equals
the number of tokens. -/
theorem normalizeText_one_field_per_token (text : String)
    (h : tokenize isWordChar text.data ≠ []) :
    (NormalizeText text).data.splitOn ' '
        = (tokenize isWordChar text.data).map stemWord ∧
      ((NormalizeText text).data.splitOn ' ').length
        = (tokenize isWordChar text.data).length := by
  have hx : ∀ l ∈ (tokenize isWordChar text.data).map stemWord, ' ' ∉ l := by
    intro l hl hmem
    obtain ⟨t, ht, rfl⟩ := List.mem_map.1 hl
    have h1 : ' ' ∈ t := (stemWord_isPrefix t).sublist.subset hmem
    have h2 := tokenize_chars_sat isWordChar text.data t ht ' ' h1
    have h3 : isWordChar ' ' = false := by decide
    rw [h3] at h2
    simp at h2
  have hn : (tokenize isWordChar text.data).map stemWord ≠ [] := by
    intro he
    exact h (List.map_eq_nil_iff.1 he)
  have hsp :=
    List.splitOn_intercalate ((tokenize isWordChar text.data).map stemWord) ' ' hx hn
  have hmain : (NormalizeText text).data.splitOn ' '
      = (tokenize isWordChar text.data).map stemWord := hsp
  exact ⟨hmain, by rw [hmain, List.length_map]⟩

/-- Witness for C9 on the text "а б": the token "а" stems to the empty
string and is kept as an empty field, giving two fields for two tokens. -/
theorem normalizeText_one_field_per_token_witness :
    (NormalizeText "а б").data.splitOn ' ' = [[], ['б']] ∧
      ((NormalizeText "а б").data.splitOn ' ').length = 2 :=
  ⟨((normalizeText_one_field_per_token "а б" (by decide)).1).trans (by decide),
   ((normalizeText_one_field_per_token "а б" (by decide)).2).trans (by decide)⟩

/-- C10: the code points of `GetWordBase word` are a prefix of the code
points of `word` — every step only removes characters from the end, and
the нн-collapse (strip "нн", re-append "н") still yields a prefix — so
the result is never longer than the input and never contains characters
absent from the input at the same positions. -/
theorem getWordBase_isPrefix_of_input (word : String) :
    (GetWordBase word).data <+: word.data ∧
      (GetWordBase word).data.length ≤ word.data.length := by
  have h := stemWord_isPrefix word.data
  exact ⟨h, h.length_le⟩
